import Mathlib

/-!
Verification of the `quat`/`qtr` split-quaternion packages.

The Go code computes with `float64`/`complex128`.  The development uses two
embeddings:

* an exact-real embedding (`ℝ`, `ℂ`) for the arithmetic, division and
  curvilinear-coordinate algorithms, in which the package tolerance
  `delta = 1e-8` is kept explicit and the `math.NaN()` value returned by the
  `Curv` functions on the light-like branch is rendered as `Option.none`;

* a computable IEEE-style model `FP` (rationals plus signed infinities and a
  NaN) for the claims that are genuinely about `Inf`/`NaN` propagation in the
  comparison and predicate functions.

Each definition is a direct transcription of the correspondingly named Go
function; comments cite the source file.
-/

open ComplexConjugate

/-- Model of an IEEE double for the special-value claims: a finite value
(idealised as a rational), a signed infinity (`true` = positive), or NaN. -/
inductive FP where
  | fin : ℚ → FP
  | inf : Bool → FP
  | nan : FP
deriving DecidableEq, Repr

/-- Predicate `math.IsInf(v, 0)`: `v` is an infinity of either sign. -/
def FP.isInf : FP → Bool
  | .inf _ => true
  | _ => false

/-- Predicate `math.IsNaN(v)`. -/
def FP.isNaN : FP → Bool
  | .nan => true
  | _ => false

/-- IEEE subtraction on the `FP` model: NaN propagates, same-signed
infinities cancel to NaN, an infinity dominates a finite value. -/
def fpSub : FP → FP → FP
  | .nan, _ => .nan
  | _, .nan => .nan
  | .inf s, .inf t => if s = t then .nan else .inf s
  | .inf s, .fin _ => .inf s
  | .fin _, .inf s => .inf !s
  | .fin q, .fin r => .fin (q - r)

/-- IEEE strict greater-than on the `FP` model: any comparison with NaN is
false, a positive infinity exceeds everything but itself. -/
def fpGt : FP → FP → Bool
  | .nan, _ => false
  | _, .nan => false
  | .inf s, .inf t => s && !t
  | .inf s, .fin _ => s
  | .fin _, .inf s => !s
  | .fin q, .fin r => r < q

/-- Package tolerance `delta` from doc.go, in the `FP` model. -/
def deltaQ : ℚ := 1 / 100000000

/-- Transcription of `notEquals` (doc.go) on the `FP` model:
`((a - b) > delta) || ((b - a) > delta)` with IEEE comparison semantics. -/
def notEqualsF (a b : FP) : Bool :=
  fpGt (fpSub a b) (.fin deltaQ) || fpGt (fpSub b a) (.fin deltaQ)

/-- A `complex128` in the `FP` model: a pair (real part, imaginary part). -/
abbrev CF := FP × FP

/-- Transcription of `cmplx.IsInf`: either part is an infinity. -/
def cIsInfF (z : CF) : Bool := z.1.isInf || z.2.isInf

/-- Transcription of `cmplx.IsNaN`: some part is NaN and neither part is an
infinity. -/
def cIsNaNF (z : CF) : Bool :=
  if z.1.isInf || z.2.isInf then false
  else z.1.isNaN || z.2.isNaN

/-- The `quat.Hamilton` layout (two `complex128` values) over the `FP`
model. -/
abbrev HamiltonF := CF × CF

/-- Transcription of `quat.Hamilton.IsInf` (hamilton.go). -/
def hamFIsInf (z : HamiltonF) : Bool := cIsInfF z.1 || cIsInfF z.2

/-- Transcription of `quat.Hamilton.IsNaN` (hamilton.go). -/
def hamFIsNaN (z : HamiltonF) : Bool :=
  if cIsInfF z.1 || cIsInfF z.2 then false
  else cIsNaNF z.1 || cIsNaNF z.2

/-- Transcription of `quat.Hamilton.Equals` (hamilton.go) over the `FP`
model. -/
def hamFEquals (z y : HamiltonF) : Bool :=
  if notEqualsF z.1.1 y.1.1 || notEqualsF z.1.2 y.1.2 then false
  else if notEqualsF z.2.1 y.2.1 || notEqualsF z.2.2 y.2.2 then false
  else true

/-- The package constant `zeroH` (hamilton.go) in the `FP` model. -/
def hamFZero : HamiltonF := ((.fin 0, .fin 0), (.fin 0, .fin 0))

/-- Transcription of `quat.HamiltonNaN()` (hamilton.go). -/
def hamFNaN : HamiltonF := ((.nan, .nan), (.nan, .nan))

/-- The guard of `quat.Hamilton.Inv` (hamilton.go line 195): `Inv` panics
exactly when this condition holds on its argument. -/
def hamFInvPanics (y : HamiltonF) : Bool := hamFEquals y hamFZero

/-- The `quat.Macfarlane` layout (four `float64` values) over the `FP`
model. -/
structure MacF where
  a : FP
  b : FP
  c : FP
  d : FP
deriving DecidableEq, Repr

/-- Component accessor for `MacF`, in array order. -/
def MacF.comp (z : MacF) : Fin 4 → FP
  | 0 => z.a
  | 1 => z.b
  | 2 => z.c
  | 3 => z.d

/-- Transcription of `quat.Macfarlane.IsInf` (macfarlane.go): the loop with
early return is the disjunction over the four components. -/
def macfFIsInf (z : MacF) : Bool :=
  z.a.isInf || z.b.isInf || z.c.isInf || z.d.isInf

/-- Transcription of `quat.Macfarlane.IsNaN` (macfarlane.go): the first loop
returns false if any component is infinite, the second returns true if any
component is NaN. -/
def macfFIsNaN (z : MacF) : Bool :=
  if z.a.isInf || z.b.isInf || z.c.isInf || z.d.isInf then false
  else z.a.isNaN || z.b.isNaN || z.c.isNaN || z.d.isNaN

noncomputable section

open scoped Classical

/-- Package tolerance `delta` from doc.go. -/
def delta : ℝ := 1 / 100000000

/-- Transcription of `notEquals` (doc.go):
`((a - b) > delta) || ((b - a) > delta)`. -/
def notEquals (a b : ℝ) : Prop := delta < a - b ∨ delta < b - a

/-- Go `math.Hypot(x, y)`: the square root of `x² + y²`. -/
def hypot (x y : ℝ) : ℝ := Real.sqrt (x ^ 2 + y ^ 2)

/-- Go `math.Atan2(y, x)`: the argument of the complex number `x + y·i`. -/
def atan2 (y x : ℝ) : ℝ := Complex.arg ⟨x, y⟩

/-- Go `math.Atanh(x)` on its domain `(-1, 1)`:
half the logarithm of `(1+x)/(1-x)`. -/
def atanh (x : ℝ) : ℝ := Real.log ((1 + x) / (1 - x)) / 2

/-- The common four-real-component layout used by `quat.Macfarlane` and the
`qtr` package types (`Hamilton`, `K`/`Klein`, `Minkowski`). -/
structure R4 where
  a : ℝ
  b : ℝ
  c : ℝ
  d : ℝ

/-- The `quat.Hamilton` type: an ordered pair of complex values
(hamilton.go). -/
abbrev HamiltonC := ℂ × ℂ

/-- Transcription of `quat.NewHamilton(a, b, c, d)`. -/
def hamNew (a b c d : ℝ) : HamiltonC := (⟨a, b⟩, ⟨c, d⟩)

/-- The package constant `zeroH` (hamilton.go). -/
def hamZero : HamiltonC := (0, 0)

/-- Transcription of `quat.Hamilton.Equals`: componentwise tolerance
equality. -/
def hamEquals (z y : HamiltonC) : Prop :=
  ¬(notEquals z.1.re y.1.re ∨ notEquals z.1.im y.1.im) ∧
  ¬(notEquals z.2.re y.2.re ∨ notEquals z.2.im y.2.im)

/-- Transcription of `quat.Hamilton.Scal(y, a)` with a complex scalar. -/
def hamScal (y : HamiltonC) (a : ℂ) : HamiltonC := (y.1 * a, y.2 * a)

/-- Transcription of `quat.Hamilton.Dil(y, a)` with a real scalar. -/
def hamDil (y : HamiltonC) (a : ℝ) : HamiltonC := (y.1 * (a : ℂ), y.2 * (a : ℂ))

/-- Transcription of `quat.Hamilton.Conj`. -/
def hamConj (y : HamiltonC) : HamiltonC := (conj y.1, -y.2)

/-- Transcription of `quat.Hamilton.Mul` (hamilton.go):
`z0 = p0·q0 − conj(q1)·p1`, `z1 = p0·q1 + p1·conj(q0)`. -/
def hamMul (x y : HamiltonC) : HamiltonC :=
  (x.1 * y.1 - conj y.2 * x.2, x.1 * y.2 + x.2 * conj y.1)

/-- Transcription of `quat.Hamilton.Quad`: with `a = cmplx.Abs(z0)` and
`b = cmplx.Abs(z1)`, the value `a·a + b·b`. -/
def hamQuad (z : HamiltonC) : ℝ :=
  Complex.abs z.1 * Complex.abs z.1 + Complex.abs z.2 * Complex.abs z.2

/-- Transcription of `quat.Hamilton.Inv`: panics (`none`) when the argument
is tolerance-equal to `zeroH`, otherwise dilates the conjugate by
`1/Quad`. -/
def hamInv (y : HamiltonC) : Option HamiltonC :=
  if hamEquals y hamZero then none
  else some (hamDil (hamConj y) (1 / hamQuad y))

/-- Transcription of `quat.Hamilton.Quo`: panics (`none`) when the divisor
is tolerance-equal to `zeroH`. -/
def hamQuo (x y : HamiltonC) : Option HamiltonC :=
  if hamEquals y hamZero then none
  else some (hamDil (hamMul x (hamConj y)) (1 / hamQuad y))

/-- Transcription of `quat.Hamilton.Curv` (hamilton.go): the zero value
yields radius 0 and three NaN angles (modelled as `none`); otherwise
`θ1 = atan(hypot(imag z0, h)/real z0)`, `θ2 = atan(h/imag z0)`,
`θ3 = atan2(imag z1, real z1)` with `h = cmplx.Abs(z1)`. -/
def hamCurv (z : HamiltonC) : ℝ × Option ℝ × Option ℝ × Option ℝ :=
  if hamEquals z hamZero then (0, none, none, none)
  else
    (Real.sqrt (hamQuad z),
     some (Real.arctan (hypot z.1.im (Complex.abs z.2) / z.1.re)),
     some (Real.arctan (Complex.abs z.2 / z.1.im)),
     some (atan2 z.2.im z.2.re))

/-- The componentwise correspondence between the two layouts of the
elliptic quaternion: the paired-complex value `(a+b·i, c+d·i)` corresponds
to the four-real value `(a, b, c, d)`. -/
def toR4 (z : ℂ × ℂ) : R4 := ⟨z.1.re, z.1.im, z.2.re, z.2.im⟩

/-- The `quat.Cockle` type: an ordered pair of complex values
(cockle.go). -/
abbrev CockleC := ℂ × ℂ

/-- Transcription of `quat.NewCockle(a, b, c, d)`. -/
def cockleNew (a b c d : ℝ) : CockleC := (⟨a, b⟩, ⟨c, d⟩)

/-- The package constant `zeroK` (cockle.go). -/
def cockleZero : CockleC := (0, 0)

/-- The package constant `oneK` (cockle.go). -/
def cockleOne : CockleC := (1, 0)

/-- Transcription of `quat.Cockle.Equals`. -/
def cockleEquals (z y : CockleC) : Prop :=
  ¬(notEquals z.1.re y.1.re ∨ notEquals z.1.im y.1.im) ∧
  ¬(notEquals z.2.re y.2.re ∨ notEquals z.2.im y.2.im)

/-- Transcription of `quat.Cockle.Dil(y, a)` with a real scalar. -/
def cockleDil (y : CockleC) (a : ℝ) : CockleC := (y.1 * (a : ℂ), y.2 * (a : ℂ))

/-- Transcription of `quat.Cockle.Conj`. -/
def cockleConj (y : CockleC) : CockleC := (conj y.1, -y.2)

/-- Transcription of `quat.Cockle.Mul` (cockle.go):
`z0 = p0·q0 + conj(q1)·p1`, `z1 = p0·q1 + p1·conj(q0)`. -/
def cockleMul (x y : CockleC) : CockleC :=
  (x.1 * y.1 + conj y.2 * x.2, x.1 * y.2 + x.2 * conj y.1)

/-- Transcription of `quat.Cockle.Quad`: with `a = cmplx.Abs(z0)` and
`b = cmplx.Abs(z1)`, the value `a·a − b·b`. -/
def cockleQuad (z : CockleC) : ℝ :=
  Complex.abs z.1 * Complex.abs z.1 - Complex.abs z.2 * Complex.abs z.2

/-- Transcription of `quat.Cockle.IsZeroDiv`: the quadrance is
tolerance-equal to zero. -/
def cockleIsZeroDiv (z : CockleC) : Prop := ¬notEquals (cockleQuad z) 0

/-- Transcription of `quat.Cockle.Inv`: panics (`none`) on a zero
divisor. -/
def cockleInv (x : CockleC) : Option CockleC :=
  if cockleIsZeroDiv x then none
  else some (cockleDil (cockleConj x) (1 / cockleQuad x))

/-- Transcription of `quat.Cockle.Quo`: panics (`none`) when the divisor is
a zero divisor. -/
def cockleQuo (x y : CockleC) : Option CockleC :=
  if cockleIsZeroDiv y then none
  else some (cockleDil (cockleMul x (cockleConj y)) (1 / cockleQuad y))

/-- The loop of `quat.Cockle.IsNilpotent` (cockle.go): `p` is repeatedly
replaced by `p·z`; the function returns as soon as `p` is tolerance-zero.
The second component is the final value of `p`, which in the Go code is the
storage of the package constant `oneK` (the local `p := oneK` copies the
pointer, so every write to `p` lands in `oneK`). -/
def cockleNilLoop (z : CockleC) : ℕ → CockleC → Bool × CockleC
  | 0, p => (false, p)
  | n + 1, p =>
    if cockleEquals (cockleMul p z) cockleZero then (true, cockleMul p z)
    else cockleNilLoop z n (cockleMul p z)

/-- Transcription of `quat.Cockle.IsNilpotent(z, n)` as a state
transformer: the first argument is the value stored in the package constant
`oneK` when the call starts, the second component of the result is the
value stored in `oneK` when the call returns. -/
def cockleIsNilpotentGo (one z : CockleC) (n : ℕ) : Bool × CockleC :=
  if cockleEquals z cockleZero then (true, one)
  else cockleNilLoop z n one

/-- Transcription of `quat.RectCockle(r, ξ, θ1, θ2, sign)` (cockle.go). -/
def cockleRect (r ξ θ1 θ2 : ℝ) (sign : ℤ) : CockleC :=
  if 0 < sign then
    (⟨r * Real.cosh ξ * Real.cos θ1, r * Real.cosh ξ * Real.sin θ1⟩,
     ⟨r * Real.sinh ξ * Real.cos θ2, r * Real.sinh ξ * Real.sin θ2⟩)
  else if sign < 0 then
    (⟨r * Real.sinh ξ * Real.cos θ1, r * Real.sinh ξ * Real.sin θ1⟩,
     ⟨r * Real.cosh ξ * Real.cos θ2, r * Real.cosh ξ * Real.sin θ2⟩)
  else
    (⟨r * Real.cos θ1, r * Real.sin θ1⟩, ⟨r * Real.cos θ2, r * Real.sin θ2⟩)

/-- Transcription of `quat.Cockle.Curv` (cockle.go): the phases of the two
complex components, together with a radius, hyperbolic angle (NaN, i.e.
`none`, on the light-like branch) and the sign of the quadrance. -/
def cockleCurv (z : CockleC) : ℝ × Option ℝ × ℝ × ℝ × ℤ :=
  if 0 < cockleQuad z then
    (Real.sqrt (cockleQuad z), some (atanh (Complex.abs z.2 / Complex.abs z.1)),
      Complex.arg z.1, Complex.arg z.2, 1)
  else if cockleQuad z < 0 then
    (Real.sqrt (-cockleQuad z), some (atanh (Complex.abs z.1 / Complex.abs z.2)),
      Complex.arg z.1, Complex.arg z.2, -1)
  else
    (Complex.abs z.1, none, Complex.arg z.1, Complex.arg z.2, 0)

/-- Transcription of `quat.NewMacfarlane(a, b, c, d)`. -/
def macfarlaneNew (a b c d : ℝ) : R4 := ⟨a, b, c, d⟩

/-- Transcription of `quat.Macfarlane.Equals`. -/
def macfarlaneEquals (z y : R4) : Prop :=
  ¬notEquals z.a y.a ∧ ¬notEquals z.b y.b ∧ ¬notEquals z.c y.c ∧ ¬notEquals z.d y.d

/-- Transcription of `quat.Macfarlane.Scal(y, a)`. -/
def macfarlaneScal (y : R4) (t : ℝ) : R4 := ⟨t * y.a, t * y.b, t * y.c, t * y.d⟩

/-- Transcription of `quat.Macfarlane.Conj`. -/
def macfarlaneConj (y : R4) : R4 := ⟨y.a, -y.b, -y.c, -y.d⟩

/-- Transcription of `quat.Macfarlane.Mul` (macfarlane.go): the hyperbolic
4×4 table with all three units squaring to +1. -/
def macfarlaneMul (x y : R4) : R4 :=
  ⟨x.a * y.a + x.b * y.b + x.c * y.c + x.d * y.d,
   x.a * y.b + x.b * y.a + x.c * y.d - x.d * y.c,
   x.a * y.c - x.b * y.d + x.c * y.a + x.d * y.b,
   x.a * y.d + x.b * y.c - x.c * y.b + x.d * y.a⟩

/-- Transcription of `quat.Macfarlane.Associator(w, x, y)`:
`(w·x)·y − w·(x·y)` componentwise. -/
def macfarlaneAssociator (w x y : R4) : R4 :=
  let l := macfarlaneMul (macfarlaneMul w x) y
  let r := macfarlaneMul w (macfarlaneMul x y)
  ⟨l.a - r.a, l.b - r.b, l.c - r.c, l.d - r.d⟩

/-- Transcription of `quat.Macfarlane.Quad`: the scalar component of
`Mul(z, Conj(z))`. -/
def macfarlaneQuad (z : R4) : ℝ := (macfarlaneMul z (macfarlaneConj z)).a

/-- Transcription of `quat.Macfarlane.IsZeroDiv`. -/
def macfarlaneIsZeroDiv (z : R4) : Prop := ¬notEquals (macfarlaneQuad z) 0

/-- Transcription of `quat.Macfarlane.Inv`: panics (`none`) on a zero
divisor. -/
def macfarlaneInv (x : R4) : Option R4 :=
  if macfarlaneIsZeroDiv x then none
  else some (macfarlaneScal (macfarlaneConj x) (1 / macfarlaneQuad x))

/-- Transcription of `quat.Macfarlane.Quo`: panics (`none`) when the
divisor is a zero divisor. -/
def macfarlaneQuo (x y : R4) : Option R4 :=
  if macfarlaneIsZeroDiv y then none
  else some (macfarlaneScal (macfarlaneMul x (macfarlaneConj y)) (1 / macfarlaneQuad y))

/-- Transcription of `quat.RectMacfarlane(r, ξ, θ1, θ2, sign)`
(macfarlane.go). -/
def macfarlaneRect (r ξ θ1 θ2 : ℝ) (sign : ℤ) : R4 :=
  if 0 < sign then
    ⟨r * Real.cosh ξ,
     r * Real.sinh ξ * Real.cos θ1,
     r * Real.sinh ξ * Real.sin θ1 * Real.cos θ2,
     r * Real.sinh ξ * Real.sin θ1 * Real.sin θ2⟩
  else if sign < 0 then
    ⟨r * Real.sinh ξ,
     r * Real.cosh ξ * Real.cos θ1,
     r * Real.cosh ξ * Real.sin θ1 * Real.cos θ2,
     r * Real.cosh ξ * Real.sin θ1 * Real.sin θ2⟩
  else
    ⟨r,
     r * Real.cos θ1,
     r * Real.sin θ1 * Real.cos θ2,
     r * Real.sin θ1 * Real.sin θ2⟩

/-- Transcription of `quat.Macfarlane.Curv` (macfarlane.go):
`h = hypot(z2, z3)`, `θ1 = atan2(h, z1)`, `θ2 = atan2(z3, z2)`;
the hyperbolic angle is NaN (`none`) on the light-like branch. -/
def macfarlaneCurv (z : R4) : ℝ × Option ℝ × ℝ × ℝ × ℤ :=
  if 0 < macfarlaneQuad z then
    (Real.sqrt (macfarlaneQuad z),
      some (atanh (hypot z.b (hypot z.c z.d) / z.a)),
      atan2 (hypot z.c z.d) z.b, atan2 z.d z.c, 1)
  else if macfarlaneQuad z < 0 then
    (Real.sqrt (-macfarlaneQuad z),
      some (atanh (z.a / hypot z.b (hypot z.c z.d))),
      atan2 (hypot z.c z.d) z.b, atan2 z.d z.c, -1)
  else
    (z.a, none, atan2 (hypot z.c z.d) z.b, atan2 z.d z.c, 0)

/-- Transcription of `qtr.Hamilton.Conj` (four-real layout). -/
def ham4Conj (y : R4) : R4 := ⟨y.a, -y.b, -y.c, -y.d⟩

/-- Transcription of `qtr.Hamilton.Mul` (four-real layout): the classical
quaternion 4×4 table. -/
def ham4Mul (x y : R4) : R4 :=
  ⟨x.a * y.a - x.b * y.b - x.c * y.c - x.d * y.d,
   x.a * y.b + x.b * y.a + x.c * y.d - x.d * y.c,
   x.a * y.c - x.b * y.d + x.c * y.a + x.d * y.b,
   x.a * y.d + x.b * y.c - x.c * y.b + x.d * y.a⟩

/-- Transcription of `qtr.Hamilton.Quad`: the scalar component of
`Mul(z, Conj(z))`. -/
def ham4Quad (z : R4) : ℝ := (ham4Mul z (ham4Conj z)).a

/-- Transcription of `qtr.Hamilton.Curv` (four-real layout):
`h = hypot(z2, z3)`, `θ1 = atan2(hypot(z1, h), z0)`, `θ2 = atan2(h, z1)`,
`θ3 = atan2(z3, z2)`. -/
def ham4Curv (z : R4) : ℝ × ℝ × ℝ × ℝ :=
  (Real.sqrt (ham4Quad z), atan2 (hypot z.b (hypot z.c z.d)) z.a,
    atan2 (hypot z.c z.d) z.b, atan2 z.d z.c)

/-- Transcription of `qtr.K.Mul` / `qtr.Klein.Mul`: the split-quaternion
4×4 table in the four-real layout. -/
def kleinMul (x y : R4) : R4 :=
  ⟨x.a * y.a - x.b * y.b + x.c * y.c + x.d * y.d,
   x.a * y.b + x.b * y.a - x.c * y.d + x.d * y.c,
   x.a * y.c - x.b * y.d + x.c * y.a + x.d * y.b,
   x.a * y.d + x.b * y.c - x.c * y.b + x.d * y.a⟩

/-- Transcription of `qtr.Minkowski.Mul` (minkowski.go): the same
hyperbolic table as `quat.Macfarlane.Mul`. -/
def minkowskiMul (x y : R4) : R4 :=
  ⟨x.a * y.a + x.b * y.b + x.c * y.c + x.d * y.d,
   x.a * y.b + x.b * y.a + x.c * y.d - x.d * y.c,
   x.a * y.c - x.b * y.d + x.c * y.a + x.d * y.b,
   x.a * y.d + x.b * y.c - x.c * y.b + x.d * y.a⟩

/-- Transcription of `qtr.NewMinkowski(a, b, c, d)`. -/
def minkowskiNew (a b c d : ℝ) : R4 := ⟨a, b, c, d⟩

/-- Transcription of `qtr.Minkowski.Conj`. -/
def minkowskiConj (y : R4) : R4 := ⟨y.a, -y.b, -y.c, -y.d⟩

/-- Transcription of `qtr.Minkowski.Associator(w, x, y)`. -/
def minkowskiAssociator (w x y : R4) : R4 :=
  let l := minkowskiMul (minkowskiMul w x) y
  let r := minkowskiMul w (minkowskiMul x y)
  ⟨l.a - r.a, l.b - r.b, l.c - r.c, l.d - r.d⟩

/-- Transcription of `qtr.Minkowski.Quad`. -/
def minkowskiQuad (z : R4) : ℝ := (minkowskiMul z (minkowskiConj z)).a

/-- Transcription of `qtr.RectMinkowski(r, ξ, θ1, θ2, sign)`
(minkowski.go); identical to `RectMacfarlane`. -/
def minkowskiRect (r ξ θ1 θ2 : ℝ) (sign : ℤ) : R4 :=
  if 0 < sign then
    ⟨r * Real.cosh ξ,
     r * Real.sinh ξ * Real.cos θ1,
     r * Real.sinh ξ * Real.sin θ1 * Real.cos θ2,
     r * Real.sinh ξ * Real.sin θ1 * Real.sin θ2⟩
  else if sign < 0 then
    ⟨r * Real.sinh ξ,
     r * Real.cosh ξ * Real.cos θ1,
     r * Real.cosh ξ * Real.sin θ1 * Real.cos θ2,
     r * Real.cosh ξ * Real.sin θ1 * Real.sin θ2⟩
  else
    ⟨r,
     r * Real.cos θ1,
     r * Real.sin θ1 * Real.cos θ2,
     r * Real.sin θ1 * Real.sin θ2⟩

/-- Transcription of `qtr.Minkowski.Curv` (minkowski.go).  Note the first
angle: `θ1 = atan2(z1, h)`, with the arguments in the opposite order from
`quat.Macfarlane.Curv`. -/
def minkowskiCurv (z : R4) : ℝ × Option ℝ × ℝ × ℝ × ℤ :=
  if 0 < minkowskiQuad z then
    (Real.sqrt (minkowskiQuad z),
      some (atanh (hypot z.b (hypot z.c z.d) / z.a)),
      atan2 z.b (hypot z.c z.d), atan2 z.d z.c, 1)
  else if minkowskiQuad z < 0 then
    (Real.sqrt (-minkowskiQuad z),
      some (atanh (z.a / hypot z.b (hypot z.c z.d))),
      atan2 z.b (hypot z.c z.d), atan2 z.d z.c, -1)
  else
    (z.a, none, atan2 z.b (hypot z.c z.d), atan2 z.d z.c, 0)

end

/-! ## Helper lemmas -/

theorem delta_pos : (0 : ℝ) < delta := by norm_num [delta]

theorem not_notEquals_iff {a b : ℝ} : ¬notEquals a b ↔ |a - b| ≤ delta := by
  unfold notEquals
  push_neg
  rw [abs_sub_le_iff]

theorem notEquals_irrefl (a : ℝ) : ¬notEquals a a := by
  simp [notEquals, delta]

theorem hamEquals_refl (z : HamiltonC) : hamEquals z z := by
  refine ⟨?_, ?_⟩ <;> rintro (h | h) <;> exact notEquals_irrefl _ h

theorem cockleEquals_refl (z : CockleC) : cockleEquals z z := by
  refine ⟨?_, ?_⟩ <;> rintro (h | h) <;> exact notEquals_irrefl _ h

theorem macfarlaneEquals_refl (z : R4) : macfarlaneEquals z z :=
  ⟨notEquals_irrefl _, notEquals_irrefl _, notEquals_irrefl _, notEquals_irrefl _⟩

theorem hamQuad_eq (z : HamiltonC) :
    hamQuad z = Complex.normSq z.1 + Complex.normSq z.2 := by
  unfold hamQuad
  rw [Complex.mul_self_abs, Complex.mul_self_abs]

theorem cockleQuad_eq (z : CockleC) :
    cockleQuad z = Complex.normSq z.1 - Complex.normSq z.2 := by
  unfold cockleQuad
  rw [Complex.mul_self_abs, Complex.mul_self_abs]

theorem macfarlaneQuad_eq (z : R4) :
    macfarlaneQuad z = z.a ^ 2 - z.b ^ 2 - z.c ^ 2 - z.d ^ 2 := by
  unfold macfarlaneQuad macfarlaneMul macfarlaneConj
  ring

theorem ham4Quad_eq (z : R4) :
    ham4Quad z = z.a ^ 2 + z.b ^ 2 + z.c ^ 2 + z.d ^ 2 := by
  unfold ham4Quad ham4Mul ham4Conj
  ring

theorem minkowskiQuad_eq (z : R4) :
    minkowskiQuad z = z.a ^ 2 - z.b ^ 2 - z.c ^ 2 - z.d ^ 2 := by
  unfold minkowskiQuad minkowskiMul minkowskiConj
  ring


theorem hamMul_dil (x y : HamiltonC) (t : ℝ) :
    hamMul x (hamDil y t) = hamDil (hamMul x y) t := by
  unfold hamMul hamDil
  refine Prod.ext ?_ ?_ <;> apply Complex.ext <;>
    simp [Complex.mul_re, Complex.mul_im] <;> ring

theorem cockleMul_dil (x y : CockleC) (t : ℝ) :
    cockleMul x (cockleDil y t) = cockleDil (cockleMul x y) t := by
  unfold cockleMul cockleDil
  refine Prod.ext ?_ ?_ <;> apply Complex.ext <;>
    simp [Complex.mul_re, Complex.mul_im] <;> ring

theorem macfarlaneMul_scal (x y : R4) (t : ℝ) :
    macfarlaneMul x (macfarlaneScal y t) = macfarlaneScal (macfarlaneMul x y) t := by
  unfold macfarlaneMul macfarlaneScal
  simp only [R4.mk.injEq]
  refine ⟨by ring, by ring, by ring, by ring⟩

theorem hamMul_conj_self (z : HamiltonC) :
    hamMul z (hamConj z) = (((hamQuad z : ℝ) : ℂ), 0) := by
  rw [hamQuad_eq]
  unfold hamMul hamConj
  refine Prod.ext ?_ ?_ <;> apply Complex.ext <;>
    simp [Complex.mul_re, Complex.mul_im, Complex.normSq_apply] <;> ring

theorem cockleMul_conj_self (z : CockleC) :
    cockleMul z (cockleConj z) = (((cockleQuad z : ℝ) : ℂ), 0) := by
  rw [cockleQuad_eq]
  unfold cockleMul cockleConj
  refine Prod.ext ?_ ?_ <;> apply Complex.ext <;>
    simp [Complex.mul_re, Complex.mul_im, Complex.normSq_apply] <;> ring

theorem macfarlaneMul_conj_self (z : R4) :
    macfarlaneMul z (macfarlaneConj z) = ⟨macfarlaneQuad z, 0, 0, 0⟩ := by
  rw [macfarlaneQuad_eq]
  unfold macfarlaneMul macfarlaneConj
  simp only [R4.mk.injEq]
  refine ⟨by ring, by ring, by ring, by ring⟩

/-! ## C4: conjugate-quadrance identity -/

/-- C4: for every value z (in each of the three `quat` algebras),
`Mul(z, Conj(z))` is exactly the scalar value `Quad(z)` — all three
non-scalar components are zero (hence zero within tolerance) and the scalar
component equals the quadrance; concretely `New(1,2,3,4)` in the Hamilton
algebra has quadrance 30, conjugate `(1,-2,-3,-4)`, and
`Mul(New(1,2,3,4), Conj(New(1,2,3,4)))` is `(30,0,0,0)`, which is also
tolerance-equal to `(30,0,0,0)`. -/
theorem C4_conj_quadrance :
    (∀ z : HamiltonC, hamMul z (hamConj z) = (((hamQuad z : ℝ) : ℂ), 0)) ∧
    (∀ z : CockleC, cockleMul z (cockleConj z) = (((cockleQuad z : ℝ) : ℂ), 0)) ∧
    (∀ z : R4, macfarlaneMul z (macfarlaneConj z) = ⟨macfarlaneQuad z, 0, 0, 0⟩) ∧
    hamQuad (hamNew 1 2 3 4) = 30 ∧
    hamConj (hamNew 1 2 3 4) = hamNew 1 (-2) (-3) (-4) ∧
    hamMul (hamNew 1 2 3 4) (hamConj (hamNew 1 2 3 4)) = hamNew 30 0 0 0 ∧
    hamEquals (hamMul (hamNew 1 2 3 4) (hamConj (hamNew 1 2 3 4)))
      (hamNew 30 0 0 0) := by
  have hq : hamQuad (hamNew 1 2 3 4) = 30 := by
    rw [hamQuad_eq]
    unfold hamNew
    rw [Complex.normSq_mk, Complex.normSq_mk]
    norm_num
  have hc : hamConj (hamNew 1 2 3 4) = hamNew 1 (-2) (-3) (-4) := by
    unfold hamConj hamNew
    refine Prod.ext ?_ ?_ <;> apply Complex.ext <;> simp
  have hm : hamMul (hamNew 1 2 3 4) (hamConj (hamNew 1 2 3 4)) = hamNew 30 0 0 0 := by
    rw [hamMul_conj_self, hq]
    unfold hamNew
    refine Prod.ext ?_ ?_ <;> apply Complex.ext <;> simp
  exact ⟨hamMul_conj_self, cockleMul_conj_self, macfarlaneMul_conj_self,
    hq, hc, hm, hm ▸ hamEquals_refl _⟩

/-! ## C3: inverse round-trip -/

theorem hamQuad_pos_of_ne {x : HamiltonC} (h : ¬hamEquals x hamZero) :
    0 < hamQuad x := by
  rw [hamQuad_eq]
  simp only [hamEquals, hamZero, notEquals, Prod.fst_zero, Prod.snd_zero,
    Complex.zero_re, Complex.zero_im, sub_zero, zero_sub, not_and_or, not_not] at h
  have hd := delta_pos
  rcases h with (h | h) | (h | h) <;> rcases h with h | h <;>
    simp only [Complex.normSq_apply] <;> nlinarith

theorem cockleQuad_ne_of_notZeroDiv {x : CockleC} (h : ¬cockleIsZeroDiv x) :
    cockleQuad x ≠ 0 := by
  unfold cockleIsZeroDiv notEquals at h
  rw [not_not] at h
  have hd := delta_pos
  rcases h with h | h <;> intro hq <;> rw [hq] at h <;> simp at h <;> linarith

theorem macfarlaneQuad_ne_of_notZeroDiv {x : R4} (h : ¬macfarlaneIsZeroDiv x) :
    macfarlaneQuad x ≠ 0 := by
  unfold macfarlaneIsZeroDiv notEquals at h
  rw [not_not] at h
  have hd := delta_pos
  rcases h with h | h <;> intro hq <;> rw [hq] at h <;> simp at h <;> linarith

theorem hamMul_inv_val {x : HamiltonC} (hq : hamQuad x ≠ 0) :
    hamMul x (hamDil (hamConj x) (1 / hamQuad x)) = hamNew 1 0 0 0 := by
  rw [hamMul_dil, hamMul_conj_self]
  unfold hamDil hamNew
  refine Prod.ext ?_ ?_ <;> apply Complex.ext <;>
    simp [Complex.mul_re, Complex.mul_im]
  field_simp

theorem cockleMul_inv_val {x : CockleC} (hq : cockleQuad x ≠ 0) :
    cockleMul x (cockleDil (cockleConj x) (1 / cockleQuad x)) = cockleNew 1 0 0 0 := by
  rw [cockleMul_dil, cockleMul_conj_self]
  unfold cockleDil cockleNew
  refine Prod.ext ?_ ?_ <;> apply Complex.ext <;>
    simp [Complex.mul_re, Complex.mul_im]
  field_simp

theorem macfarlaneMul_inv_val {x : R4} (hq : macfarlaneQuad x ≠ 0) :
    macfarlaneMul x (macfarlaneScal (macfarlaneConj x) (1 / macfarlaneQuad x)) =
      macfarlaneNew 1 0 0 0 := by
  rw [macfarlaneMul_scal, macfarlaneMul_conj_self]
  unfold macfarlaneScal macfarlaneNew
  simp only [R4.mk.injEq]
  refine ⟨?_, by ring, by ring, by ring⟩
  field_simp

/-- C3: whenever the divisor check lets `Inv` return — its argument is not
(tolerance-)zero for Hamilton, not a zero divisor for Cockle and Macfarlane
— the product of x with `Inv(x)` is exactly the identity `(1,0,0,0)`, and
in particular tolerance-equal to it. -/
theorem C3_inverse_round_trip :
    (∀ x : HamiltonC, ¬hamEquals x hamZero →
      ∃ v, hamInv x = some v ∧ hamMul x v = hamNew 1 0 0 0 ∧
        hamEquals (hamMul x v) (hamNew 1 0 0 0)) ∧
    (∀ x : CockleC, ¬cockleIsZeroDiv x →
      ∃ v, cockleInv x = some v ∧ cockleMul x v = cockleNew 1 0 0 0 ∧
        cockleEquals (cockleMul x v) (cockleNew 1 0 0 0)) ∧
    (∀ x : R4, ¬macfarlaneIsZeroDiv x →
      ∃ v, macfarlaneInv x = some v ∧ macfarlaneMul x v = macfarlaneNew 1 0 0 0 ∧
        macfarlaneEquals (macfarlaneMul x v) (macfarlaneNew 1 0 0 0)) := by
  refine ⟨?_, ?_, ?_⟩
  · intro x h
    have hq : hamQuad x ≠ 0 := ne_of_gt (hamQuad_pos_of_ne h)
    have key := hamMul_inv_val hq
    exact ⟨_, by rw [hamInv, if_neg h], key, key ▸ hamEquals_refl _⟩
  · intro x h
    have hq := cockleQuad_ne_of_notZeroDiv h
    have key := cockleMul_inv_val hq
    exact ⟨_, by rw [cockleInv, if_neg h], key, key ▸ cockleEquals_refl _⟩
  · intro x h
    have hq := macfarlaneQuad_ne_of_notZeroDiv h
    have key := macfarlaneMul_inv_val hq
    exact ⟨_, by rw [macfarlaneInv, if_neg h], key, key ▸ macfarlaneEquals_refl _⟩

/-- Witness for C3 at concrete non-zero-divisor inputs `(1,2,3,4)`
(Hamilton), `(2,0,0,0)` (Cockle) and `(2,0,0,0)` (Macfarlane). -/
theorem C3_witness :
    (¬hamEquals (hamNew 1 2 3 4) hamZero ∧
      ∃ v, hamInv (hamNew 1 2 3 4) = some v ∧
        hamMul (hamNew 1 2 3 4) v = hamNew 1 0 0 0 ∧
        hamEquals (hamMul (hamNew 1 2 3 4) v) (hamNew 1 0 0 0)) ∧
    (¬cockleIsZeroDiv (cockleNew 2 0 0 0) ∧
      ∃ v, cockleInv (cockleNew 2 0 0 0) = some v ∧
        cockleMul (cockleNew 2 0 0 0) v = cockleNew 1 0 0 0 ∧
        cockleEquals (cockleMul (cockleNew 2 0 0 0) v) (cockleNew 1 0 0 0)) ∧
    (¬macfarlaneIsZeroDiv (macfarlaneNew 2 0 0 0) ∧
      ∃ v, macfarlaneInv (macfarlaneNew 2 0 0 0) = some v ∧
        macfarlaneMul (macfarlaneNew 2 0 0 0) v = macfarlaneNew 1 0 0 0 ∧
        macfarlaneEquals (macfarlaneMul (macfarlaneNew 2 0 0 0) v)
          (macfarlaneNew 1 0 0 0)) := by
  have h1 : ¬hamEquals (hamNew 1 2 3 4) hamZero := by
    unfold hamEquals hamZero hamNew notEquals
    intro h
    have h2 := h.1
    rw [not_or] at h2
    have h3 := h2.1
    simp [delta] at h3
    norm_num at h3
  have h2 : ¬cockleIsZeroDiv (cockleNew 2 0 0 0) := by
    unfold cockleIsZeroDiv
    rw [not_not, cockleQuad_eq]
    unfold cockleNew notEquals
    rw [Complex.normSq_mk, Complex.normSq_mk]
    left
    norm_num [delta]
  have h3 : ¬macfarlaneIsZeroDiv (macfarlaneNew 2 0 0 0) := by
    unfold macfarlaneIsZeroDiv
    rw [not_not, macfarlaneQuad_eq]
    unfold macfarlaneNew notEquals
    left
    norm_num [delta]
  exact ⟨⟨h1, C3_inverse_round_trip.1 _ h1⟩, ⟨h2, C3_inverse_round_trip.2.1 _ h2⟩,
    ⟨h3, C3_inverse_round_trip.2.2 _ h3⟩⟩

/-! ## C2: division failure on zero divisors -/

theorem hamEquals_zero_iff (y : HamiltonC) :
    hamEquals y hamZero ↔
      |y.1.re| ≤ delta ∧ |y.1.im| ≤ delta ∧ |y.2.re| ≤ delta ∧ |y.2.im| ≤ delta := by
  unfold hamEquals hamZero
  rw [not_or, not_or]
  simp only [Prod.fst_zero, Prod.snd_zero, Complex.zero_re, Complex.zero_im]
  rw [not_notEquals_iff, not_notEquals_iff, not_notEquals_iff, not_notEquals_iff]
  simp only [sub_zero]
  tauto

theorem cockleIsZeroDiv_iff (y : CockleC) :
    cockleIsZeroDiv y ↔ |cockleQuad y| ≤ delta := by
  unfold cockleIsZeroDiv
  rw [not_notEquals_iff, sub_zero]

theorem macfarlaneIsZeroDiv_iff (y : R4) :
    macfarlaneIsZeroDiv y ↔ |macfarlaneQuad y| ≤ delta := by
  unfold macfarlaneIsZeroDiv
  rw [not_notEquals_iff, sub_zero]

/-- C2 (amended): `Inv` and `Quo` fail — return `none`, the rendering of
the Go panic — exactly when the divisor is a zero divisor in the package
sense: for the elliptic Hamilton algebra, when every component of the
divisor is within the 1e-8 tolerance of zero (not only when it is exactly
zero); for the split Cockle and hyperbolic Macfarlane algebras, when the
quadrance of the divisor is within tolerance of zero.  On every other
divisor they return a value (`some`), never a substituted default.  In
particular `NewCockle(1,0,1,0)` has quadrance 0, is a zero divisor, and
`Inv` on it panics. -/
theorem C2_division_failure :
    (∀ y : HamiltonC, hamInv y = none ↔
      |y.1.re| ≤ delta ∧ |y.1.im| ≤ delta ∧ |y.2.re| ≤ delta ∧ |y.2.im| ≤ delta) ∧
    (∀ x y : HamiltonC, hamQuo x y = none ↔
      |y.1.re| ≤ delta ∧ |y.1.im| ≤ delta ∧ |y.2.re| ≤ delta ∧ |y.2.im| ≤ delta) ∧
    (∀ y : CockleC, cockleInv y = none ↔ |cockleQuad y| ≤ delta) ∧
    (∀ x y : CockleC, cockleQuo x y = none ↔ |cockleQuad y| ≤ delta) ∧
    (∀ y : R4, macfarlaneInv y = none ↔ |macfarlaneQuad y| ≤ delta) ∧
    (∀ x y : R4, macfarlaneQuo x y = none ↔ |macfarlaneQuad y| ≤ delta) ∧
    cockleQuad (cockleNew 1 0 1 0) = 0 ∧
    cockleIsZeroDiv (cockleNew 1 0 1 0) ∧
    cockleInv (cockleNew 1 0 1 0) = none := by
  have hinv : ∀ y : HamiltonC, hamInv y = none ↔ hamEquals y hamZero := by
    intro y
    unfold hamInv
    split_ifs with h <;> simp [h]
  have hquo : ∀ x y : HamiltonC, hamQuo x y = none ↔ hamEquals y hamZero := by
    intro x y
    unfold hamQuo
    split_ifs with h <;> simp [h]
  have cinv : ∀ y : CockleC, cockleInv y = none ↔ cockleIsZeroDiv y := by
    intro y
    unfold cockleInv
    split_ifs with h <;> simp [h]
  have cquo : ∀ x y : CockleC, cockleQuo x y = none ↔ cockleIsZeroDiv y := by
    intro x y
    unfold cockleQuo
    split_ifs with h <;> simp [h]
  have minv : ∀ y : R4, macfarlaneInv y = none ↔ macfarlaneIsZeroDiv y := by
    intro y
    unfold macfarlaneInv
    split_ifs with h <;> simp [h]
  have mquo : ∀ x y : R4, macfarlaneQuo x y = none ↔ macfarlaneIsZeroDiv y := by
    intro x y
    unfold macfarlaneQuo
    split_ifs with h <;> simp [h]
  have hq : cockleQuad (cockleNew 1 0 1 0) = 0 := by
    rw [cockleQuad_eq]
    unfold cockleNew
    simp only [Complex.normSq_mk]
    norm_num
  have hzd : cockleIsZeroDiv (cockleNew 1 0 1 0) := by
    rw [cockleIsZeroDiv_iff, hq]
    simp [delta_pos.le]
  refine ⟨fun y => (hinv y).trans (hamEquals_zero_iff y),
    fun x y => (hquo x y).trans (hamEquals_zero_iff y),
    fun y => (cinv y).trans (cockleIsZeroDiv_iff y),
    fun x y => (cquo x y).trans (cockleIsZeroDiv_iff y),
    fun y => (minv y).trans (macfarlaneIsZeroDiv_iff y),
    fun x y => (mquo x y).trans (macfarlaneIsZeroDiv_iff y),
    hq, hzd, (cinv _).mpr hzd⟩

/-- Counterexample to C2 as stated: the divisor `(1e-9, 0, 0, 0)` in the
elliptic Hamilton algebra is not exactly zero, yet `Inv` panics on it (the
guard compares with tolerance equality, not exact equality). -/
theorem C2_counterexample :
    hamNew (1 / 1000000000) 0 0 0 ≠ hamNew 0 0 0 0 ∧
    hamInv (hamNew (1 / 1000000000) 0 0 0) = none := by
  constructor
  · intro h
    rw [Prod.ext_iff] at h
    have h1 := h.1
    rw [Complex.ext_iff] at h1
    have := h1.1
    norm_num [hamNew] at this
  · rw [hamInv, if_pos]
    unfold hamEquals hamZero hamNew notEquals
    norm_num [delta]

/-! ## C10: the Scal/Mul doc identity -/

/-- Counterexample to C10 as stated: for `y = j` (that is `New(0,0,1,0)`)
and the purely imaginary scalar `a = i`, `Scal(y, a)` is `+k` while
`Mul(y, Hamilton{a, 0})` is `-k`. -/
theorem C10_counterexample :
    hamScal (hamNew 0 0 1 0) Complex.I ≠
      hamMul (hamNew 0 0 1 0) (Complex.I, 0) := by
  intro h
  rw [Prod.ext_iff] at h
  have h2 := h.2
  rw [Complex.ext_iff] at h2
  have := h2.2
  simp [hamScal, hamMul, hamNew, Complex.mul_im, Complex.mul_re] at this
  norm_num at this

/-- C10 (amended): the documented special-case identity
`Scal(y, a) = Mul(y, Hamilton{a, 0})` holds for every Hamilton y and every
real scalar a (the code multiplies the second pair by `a`, whereas `Mul`
multiplies it by `conj(a)`, so the identity requires `a` real). -/
theorem C10_scal_mul_real (y : HamiltonC) (t : ℝ) :
    hamScal y ((t : ℝ) : ℂ) = hamMul y (((t : ℝ) : ℂ), 0) := by
  unfold hamScal hamMul
  refine Prod.ext ?_ ?_ <;> simp [Complex.conj_ofReal]

/-! ## C8: associativity per signature -/

/-- C8: multiplication is associative in the elliptic Hamilton algebra and
in the split Cockle and Klein algebras, but not in the hyperbolic
Macfarlane and Minkowski algebras: the associator of the basis units
`(s, s, t)` is `(0,0,2,0) ≠ 0` in both. -/
theorem C8_associativity :
    (∀ x y z : HamiltonC, hamMul (hamMul x y) z = hamMul x (hamMul y z)) ∧
    (∀ x y z : CockleC, cockleMul (cockleMul x y) z = cockleMul x (cockleMul y z)) ∧
    (∀ x y z : R4, kleinMul (kleinMul x y) z = kleinMul x (kleinMul y z)) ∧
    macfarlaneAssociator (macfarlaneNew 0 1 0 0) (macfarlaneNew 0 1 0 0)
      (macfarlaneNew 0 0 1 0) = macfarlaneNew 0 0 2 0 ∧
    macfarlaneNew 0 0 2 0 ≠ macfarlaneNew 0 0 0 0 ∧
    minkowskiAssociator (minkowskiNew 0 1 0 0) (minkowskiNew 0 1 0 0)
      (minkowskiNew 0 0 1 0) = minkowskiNew 0 0 2 0 ∧
    minkowskiNew 0 0 2 0 ≠ minkowskiNew 0 0 0 0 := by
  refine ⟨?_, ?_, ?_, ?_, ?_, ?_, ?_⟩
  · intro x y z
    unfold hamMul
    refine Prod.ext ?_ ?_ <;> apply Complex.ext <;>
      simp [Complex.mul_re, Complex.mul_im] <;> ring
  · intro x y z
    unfold cockleMul
    refine Prod.ext ?_ ?_ <;> apply Complex.ext <;>
      simp [Complex.mul_re, Complex.mul_im] <;> ring
  · intro x y z
    unfold kleinMul
    simp only [R4.mk.injEq]
    refine ⟨by ring, by ring, by ring, by ring⟩
  · unfold macfarlaneAssociator macfarlaneMul macfarlaneNew
    simp only [R4.mk.injEq]
    norm_num
  · unfold macfarlaneNew
    simp only [ne_eq, R4.mk.injEq]
    norm_num
  · unfold minkowskiAssociator minkowskiMul minkowskiNew
    simp only [R4.mk.injEq]
    norm_num
  · unfold minkowskiNew
    simp only [ne_eq, R4.mk.injEq]
    norm_num

/-! ## C5: purity of the operations / the IsNilpotent aliasing bug -/

/-- C5 exhibit: `Cockle.IsNilpotent` writes through the package constant
`oneK`.  With `z = New(0,1,1,0)` (which satisfies `z·z = 0` exactly) and
`n = 1`, the first call returns `false` and leaves `z` stored in `oneK`;
the second, textually identical, call then starts its power computation
from the corrupted `oneK` and returns `true`. -/
theorem C5_isNilpotent_mutates_oneK :
    (cockleIsNilpotentGo cockleOne (cockleNew 0 1 1 0) 1).1 = false ∧
    (cockleIsNilpotentGo cockleOne (cockleNew 0 1 1 0) 1).2 ≠ cockleOne ∧
    (cockleIsNilpotentGo ((cockleIsNilpotentGo cockleOne (cockleNew 0 1 1 0) 1).2)
        (cockleNew 0 1 1 0) 1).1 = true := by
  have hz : ¬cockleEquals (cockleNew 0 1 1 0) cockleZero := by
    unfold cockleEquals cockleZero cockleNew notEquals
    intro h
    have h1 := h.1
    rw [not_or] at h1
    have h2 := h1.2
    simp [delta] at h2
    norm_num at h2
  have hm1 : cockleMul cockleOne (cockleNew 0 1 1 0) = cockleNew 0 1 1 0 := by
    unfold cockleMul cockleOne cockleNew
    refine Prod.ext ?_ ?_ <;> apply Complex.ext <;>
      simp [Complex.mul_re, Complex.mul_im]
  have hm2 : cockleMul (cockleNew 0 1 1 0) (cockleNew 0 1 1 0) = cockleZero := by
    unfold cockleMul cockleZero cockleNew
    refine Prod.ext ?_ ?_ <;> apply Complex.ext <;>
      simp [Complex.mul_re, Complex.mul_im]
  have first : cockleIsNilpotentGo cockleOne (cockleNew 0 1 1 0) 1 =
      (false, cockleNew 0 1 1 0) := by
    unfold cockleIsNilpotentGo
    rw [if_neg hz]
    show cockleNilLoop (cockleNew 0 1 1 0) (0 + 1) cockleOne = (false, cockleNew 0 1 1 0)
    rw [cockleNilLoop, hm1, if_neg hz]
    rfl
  have second : (cockleIsNilpotentGo (cockleNew 0 1 1 0) (cockleNew 0 1 1 0) 1).1 =
      true := by
    unfold cockleIsNilpotentGo
    rw [if_neg hz]
    show (cockleNilLoop (cockleNew 0 1 1 0) (0 + 1) (cockleNew 0 1 1 0)).1 = true
    rw [cockleNilLoop, hm2, if_pos (cockleEquals_refl _)]
  refine ⟨by rw [first], ?_, by rw [first]; exact second⟩
  rw [first]
  intro h
  rw [Prod.ext_iff] at h
  have h1 := h.1
  rw [Complex.ext_iff] at h1
  have := h1.2
  simp [cockleNew, cockleOne] at this

/-! ## C7: special-value predicates -/

theorem MacF.exists_isInf (z : MacF) :
    (∃ i, (z.comp i).isInf = true) ↔
      z.a.isInf = true ∨ z.b.isInf = true ∨ z.c.isInf = true ∨ z.d.isInf = true := by
  constructor
  · rintro ⟨⟨iv, hv⟩, h⟩
    match iv, hv, h with
    | 0, _, h => exact Or.inl h
    | 1, _, h => exact Or.inr (Or.inl h)
    | 2, _, h => exact Or.inr (Or.inr (Or.inl h))
    | 3, _, h => exact Or.inr (Or.inr (Or.inr h))
  · rintro (h | h | h | h)
    exacts [⟨0, h⟩, ⟨1, h⟩, ⟨2, h⟩, ⟨3, h⟩]

theorem MacF.exists_isNaN (z : MacF) :
    (∃ i, (z.comp i).isNaN = true) ↔
      z.a.isNaN = true ∨ z.b.isNaN = true ∨ z.c.isNaN = true ∨ z.d.isNaN = true := by
  constructor
  · rintro ⟨⟨iv, hv⟩, h⟩
    match iv, hv, h with
    | 0, _, h => exact Or.inl h
    | 1, _, h => exact Or.inr (Or.inl h)
    | 2, _, h => exact Or.inr (Or.inr (Or.inl h))
    | 3, _, h => exact Or.inr (Or.inr (Or.inr h))
  · rintro (h | h | h | h)
    exacts [⟨0, h⟩, ⟨1, h⟩, ⟨2, h⟩, ⟨3, h⟩]

theorem MacF.forall_not_isInf (z : MacF) :
    (∀ i, (z.comp i).isInf = false) ↔
      z.a.isInf = false ∧ z.b.isInf = false ∧ z.c.isInf = false ∧ z.d.isInf = false := by
  constructor
  · intro h
    exact ⟨h 0, h 1, h 2, h 3⟩
  · rintro ⟨ha, hb, hc, hd⟩ ⟨iv, hv⟩
    match iv, hv with
    | 0, _ => exact ha
    | 1, _ => exact hb
    | 2, _ => exact hc
    | 3, _ => exact hd

/-- C7: in the four-real (Macfarlane) layout and the paired-complex
(Hamilton) layout alike, `IsInf` is true iff some component is an infinity
of either sign, `IsNaN` is true iff some component is NaN and no component
is infinite, and consequently a value with one infinite component and one
NaN component reports `IsInf() = true` and `IsNaN() = false`. -/
theorem C7_special_value_predicates :
    (∀ z : MacF, macfFIsInf z = true ↔ ∃ i, (z.comp i).isInf = true) ∧
    (∀ z : MacF, macfFIsNaN z = true ↔
      ((∃ i, (z.comp i).isNaN = true) ∧ ∀ i, (z.comp i).isInf = false)) ∧
    (∀ z : HamiltonF, hamFIsInf z = true ↔
      (z.1.1.isInf = true ∨ z.1.2.isInf = true ∨ z.2.1.isInf = true ∨ z.2.2.isInf = true)) ∧
    (∀ z : HamiltonF, hamFIsNaN z = true ↔
      ((z.1.1.isNaN = true ∨ z.1.2.isNaN = true ∨ z.2.1.isNaN = true ∨ z.2.2.isNaN = true) ∧
        (z.1.1.isInf = false ∧ z.1.2.isInf = false ∧ z.2.1.isInf = false ∧
          z.2.2.isInf = false))) ∧
    (∀ z : MacF, (∃ i, (z.comp i).isInf = true) → (∃ j, (z.comp j).isNaN = true) →
      macfFIsInf z = true ∧ macfFIsNaN z = false) := by
  have hinf : ∀ z : MacF, macfFIsInf z = true ↔ ∃ i, (z.comp i).isInf = true := by
    intro z
    unfold macfFIsInf
    rw [MacF.exists_isInf]
    simp [Bool.or_eq_true, or_assoc]
  have hnan : ∀ z : MacF, macfFIsNaN z = true ↔
      ((∃ i, (z.comp i).isNaN = true) ∧ ∀ i, (z.comp i).isInf = false) := by
    intro z
    unfold macfFIsNaN
    rw [MacF.exists_isNaN, MacF.forall_not_isInf]
    split_ifs with h
    · simp only [Bool.false_eq_true, false_iff]
      rintro ⟨-, ha, hb, hc, hd⟩
      simp [ha, hb, hc, hd] at h
    · simp only [Bool.or_eq_true, not_or, Bool.not_eq_true] at h
      obtain ⟨⟨⟨ha, hb⟩, hc⟩, hd⟩ := h
      simp [ha, hb, hc, hd, Bool.or_eq_true, or_assoc]
  refine ⟨hinf, hnan, ?_, ?_, ?_⟩
  · intro z
    obtain ⟨⟨p, q⟩, r, s⟩ := z
    cases p <;> cases q <;> cases r <;> cases s <;>
      simp [hamFIsInf, cIsInfF, FP.isInf]
  · intro z
    obtain ⟨⟨p, q⟩, r, s⟩ := z
    cases p <;> cases q <;> cases r <;> cases s <;>
      simp [hamFIsNaN, cIsInfF, cIsNaNF, FP.isInf, FP.isNaN]
  · intro z hi hj
    refine ⟨(hinf z).mpr hi, ?_⟩
    by_contra hfalse
    rw [Bool.not_eq_false] at hfalse
    rcases (hnan z).mp hfalse with ⟨-, hall⟩
    rcases hi with ⟨i, hi⟩
    rw [hall i] at hi
    cases hi

/-- Witness for C7: the Macfarlane-layout value `(+Inf, NaN, 0, 0)` has an
infinite component (index 0) and a NaN component (index 1), and the
theorem yields `IsInf = true` and `IsNaN = false` for it. -/
theorem C7_witness :
    (∃ i, ((MacF.mk (.inf true) .nan (.fin 0) (.fin 0)).comp i).isInf = true) ∧
    (∃ j, ((MacF.mk (.inf true) .nan (.fin 0) (.fin 0)).comp j).isNaN = true) ∧
    (macfFIsInf (MacF.mk (.inf true) .nan (.fin 0) (.fin 0)) = true ∧
      macfFIsNaN (MacF.mk (.inf true) .nan (.fin 0) (.fin 0)) = false) := by
  have hi : ∃ i, ((MacF.mk (.inf true) .nan (.fin 0) (.fin 0)).comp i).isInf = true :=
    ⟨0, by decide⟩
  have hj : ∃ j, ((MacF.mk (.inf true) .nan (.fin 0) (.fin 0)).comp j).isNaN = true :=
    ⟨1, by decide⟩
  exact ⟨hi, hj, C7_special_value_predicates.2.2.2.2 _ hi hj⟩


/-! ## C9: NaN propagation through tolerance equality -/

/-- C9: `notEquals` is false whenever either argument is NaN (the two
floating comparisons both fail), hence the all-NaN Hamilton value is
`Equals`-equal to every value; in particular it is `Equals`-equal to zero,
so the guard of `Inv` fires on it and `Inv(HamiltonNaN())` panics exactly
as it does on zero. -/
theorem C9_nan_equals_everything :
    (∀ a : FP, notEqualsF FP.nan a = false ∧ notEqualsF a FP.nan = false) ∧
    (∀ y : HamiltonF, hamFEquals hamFNaN y = true) ∧
    hamFEquals hamFNaN hamFZero = true ∧
    hamFInvPanics hamFNaN = true := by
  have hne : ∀ a : FP, notEqualsF FP.nan a = false ∧ notEqualsF a FP.nan = false := by
    intro a
    cases a <;> simp [notEqualsF, fpSub, fpGt]
  have heq : ∀ y : HamiltonF, hamFEquals hamFNaN y = true := by
    intro y
    unfold hamFEquals hamFNaN
    simp [(hne _).1]
  exact ⟨hne, heq, heq _, heq _⟩

/-! ## C6: the two Hamilton layouts -/

theorem complexAbs_eq_hypot (w : ℂ) : Complex.abs w = hypot w.re w.im := by
  rw [Complex.abs_apply, Complex.normSq_apply, hypot]
  congr 1
  ring

theorem atan2_of_pos (y : ℝ) {x : ℝ} (hx : 0 < x) :
    atan2 y x = Real.arctan (y / x) := by
  unfold atan2
  have harg : |Complex.arg ⟨x, y⟩| < Real.pi / 2 :=
    Complex.abs_arg_lt_pi_div_two_iff.mpr (Or.inl hx)
  have htan := Complex.tan_arg ⟨x, y⟩
  rw [abs_lt] at harg
  rw [show (⟨x, y⟩ : ℂ).im = y from rfl, show (⟨x, y⟩ : ℂ).re = x from rfl] at htan
  rw [← htan, Real.arctan_tan harg.1 harg.2]

/-- C6 (amended): the paired-complex and four-real layouts of the elliptic
quaternion agree exactly on `Mul` for every pair of inputs; their `Curv`
results agree (radius and all three angles, exactly) on every input whose
scalar component exceeds the tolerance and whose first imaginary component
is positive.  (For other inputs the two `Curv` implementations genuinely
differ: the paired-complex layout uses `atan`, the four-real layout
`atan2`.) -/
theorem C6_layout_agreement :
    (∀ x y : HamiltonC, toR4 (hamMul x y) = ham4Mul (toR4 x) (toR4 y)) ∧
    (∀ z : HamiltonC, delta < z.1.re → 0 < z.1.im →
      hamCurv z =
        ((ham4Curv (toR4 z)).1, some (ham4Curv (toR4 z)).2.1,
         some (ham4Curv (toR4 z)).2.2.1, some (ham4Curv (toR4 z)).2.2.2)) := by
  constructor
  · intro x y
    unfold toR4 hamMul ham4Mul
    simp only [R4.mk.injEq]
    refine ⟨?_, ?_, ?_, ?_⟩ <;>
      simp [Complex.mul_re, Complex.mul_im, Complex.add_re, Complex.add_im,
        Complex.sub_re, Complex.sub_im] <;> ring
  · intro z ha hb
    have hx : (0 : ℝ) < z.1.re := lt_trans delta_pos ha
    have hne : ¬hamEquals z hamZero := by
      unfold hamEquals hamZero notEquals
      intro h
      have h1 := h.1
      rw [not_or] at h1
      refine h1.1 (Or.inl ?_)
      simpa using ha
    unfold hamCurv
    rw [if_neg hne]
    unfold ham4Curv toR4
    refine Prod.ext ?_ (Prod.ext ?_ (Prod.ext ?_ ?_))
    · show Real.sqrt (hamQuad z) = Real.sqrt (ham4Quad ⟨z.1.re, z.1.im, z.2.re, z.2.im⟩)
      congr 1
      rw [hamQuad_eq, ham4Quad_eq]
      simp only [Complex.normSq_apply]
      ring
    · show some (Real.arctan (hypot z.1.im (Complex.abs z.2) / z.1.re)) =
        some (atan2 (hypot z.1.im (hypot z.2.re z.2.im)) z.1.re)
      rw [atan2_of_pos _ hx, complexAbs_eq_hypot]
    · show some (Real.arctan (Complex.abs z.2 / z.1.im)) =
        some (atan2 (hypot z.2.re z.2.im) z.1.im)
      rw [atan2_of_pos _ hb, complexAbs_eq_hypot]
    · rfl

/-- Witness for C6 at the concrete input `(1, 1, 2, 3)`: the scalar part 1
exceeds the tolerance and the first imaginary part 1 is positive, so the
`Curv` results of the two layouts coincide there. -/
theorem C6_witness :
    delta < (hamNew 1 1 2 3).1.re ∧ 0 < (hamNew 1 1 2 3).1.im ∧
    hamCurv (hamNew 1 1 2 3) =
      ((ham4Curv (toR4 (hamNew 1 1 2 3))).1,
       some (ham4Curv (toR4 (hamNew 1 1 2 3))).2.1,
       some (ham4Curv (toR4 (hamNew 1 1 2 3))).2.2.1,
       some (ham4Curv (toR4 (hamNew 1 1 2 3))).2.2.2) := by
  have ha : delta < (hamNew 1 1 2 3).1.re := by norm_num [hamNew, delta]
  have hb : (0 : ℝ) < (hamNew 1 1 2 3).1.im := by norm_num [hamNew]
  exact ⟨ha, hb, C6_layout_agreement.2 _ ha hb⟩

/-- Counterexample to C6 as stated: at the quadruple `(-1, 0, 0, 0)` the
paired-complex `Curv` computes `θ1 = atan(0 / -1) = 0` while the four-real
`Curv` computes `θ1 = atan2(0, -1) = π`, a discrepancy far beyond the 1e-8
tolerance. -/
theorem C6_counterexample :
    (hamCurv (hamNew (-1) 0 0 0)).2.1 = some 0 ∧
    (ham4Curv (toR4 (hamNew (-1) 0 0 0))).2.1 = Real.pi ∧
    delta < |Real.pi - 0| := by
  have hne : ¬hamEquals (hamNew (-1) 0 0 0) hamZero := by
    unfold hamEquals hamZero hamNew notEquals
    intro h
    have h1 := h.1
    rw [not_or] at h1
    refine h1.1 (Or.inr ?_)
    norm_num [delta]
  refine ⟨?_, ?_, ?_⟩
  · unfold hamCurv
    rw [if_neg hne]
    show some (Real.arctan (hypot (hamNew (-1) 0 0 0).1.im
      (Complex.abs (hamNew (-1) 0 0 0).2) / (hamNew (-1) 0 0 0).1.re)) = some 0
    unfold hamNew
    norm_num [hypot, Complex.abs_apply, Complex.normSq_mk, Real.sqrt_zero,
      Real.arctan_zero]
  · unfold ham4Curv toR4 hamNew
    show atan2 (hypot 0 (hypot 0 0)) (-1) = Real.pi
    have h0 : hypot 0 (hypot 0 0) = 0 := by
      norm_num [hypot, Real.sqrt_zero]
    rw [h0]
    unfold atan2
    have : (⟨-1, 0⟩ : ℂ) = ((-1 : ℝ) : ℂ) := by
      apply Complex.ext <;> simp
    rw [this]
    exact Complex.arg_ofReal_of_neg (by norm_num)
  · rw [sub_zero, abs_of_pos Real.pi_pos]
    have := Real.pi_gt_three
    norm_num [delta]
    linarith

/-! ## C1: curvilinear round-trips, helper lemmas -/

theorem normSq_polar (k θ : ℝ) :
    Complex.normSq ⟨k * Real.cos θ, k * Real.sin θ⟩ = k ^ 2 := by
  rw [Complex.normSq_mk]
  linear_combination (k ^ 2) * Real.sin_sq_add_cos_sq θ

theorem abs_polar (k θ : ℝ) :
    Complex.abs ⟨k * Real.cos θ, k * Real.sin θ⟩ = |k| := by
  rw [Complex.abs_apply, normSq_polar, Real.sqrt_sq_eq_abs]

theorem hypot_polar (k θ : ℝ) :
    hypot (k * Real.cos θ) (k * Real.sin θ) = |k| := by
  unfold hypot
  have h : (k * Real.cos θ) ^ 2 + (k * Real.sin θ) ^ 2 = k ^ 2 := by
    linear_combination (k ^ 2) * Real.sin_sq_add_cos_sq θ
  rw [h, Real.sqrt_sq_eq_abs]

theorem arg_polar {k θ : ℝ} (hk : 0 < k) (hθ : θ ∈ Set.Ioc (-Real.pi) Real.pi) :
    Complex.arg ⟨k * Real.cos θ, k * Real.sin θ⟩ = θ := by
  have hz : (⟨k * Real.cos θ, k * Real.sin θ⟩ : ℂ) =
      (k : ℂ) * ((Real.cos θ : ℂ) + (Real.sin θ : ℂ) * Complex.I) := by
    apply Complex.ext <;>
      simp [Complex.mul_re, Complex.mul_im, Complex.cos_ofReal_re, Complex.sin_ofReal_re]
  rw [hz, Complex.arg_real_mul _ hk, Complex.ofReal_cos, Complex.ofReal_sin,
    Complex.arg_cos_add_sin_mul_I hθ]

theorem atan2_polar {k θ : ℝ} (hk : 0 < k) (hθ : θ ∈ Set.Ioc (-Real.pi) Real.pi) :
    atan2 (k * Real.sin θ) (k * Real.cos θ) = θ := by
  unfold atan2
  exact arg_polar hk hθ

theorem atanh_tanh (x : ℝ) : atanh (Real.tanh x) = x := by
  unfold atanh
  have hc : Real.cosh x ≠ 0 := ne_of_gt (Real.cosh_pos x)
  have h1 : 1 + Real.tanh x = Real.exp x / Real.cosh x := by
    rw [Real.tanh_eq_sinh_div_cosh, ← Real.cosh_add_sinh]
    field_simp
  have h2 : 1 - Real.tanh x = Real.exp (-x) / Real.cosh x := by
    rw [Real.tanh_eq_sinh_div_cosh, ← Real.cosh_sub_sinh]
    field_simp
  have he : Real.exp (-x) ≠ 0 := Real.exp_ne_zero _
  have h3 : (1 + Real.tanh x) / (1 - Real.tanh x) = Real.exp (2 * x) := by
    rw [h1, h2]
    rw [div_div_div_cancel_right₀]
    · rw [← Real.exp_sub]
      congr 1
      ring
    · exact hc
  rw [h3, Real.log_exp]
  ring

theorem div_eq_tanh {r ξ : ℝ} (hr : r ≠ 0) :
    r * Real.sinh ξ / (r * Real.cosh ξ) = Real.tanh ξ := by
  have hc : Real.cosh ξ ≠ 0 := ne_of_gt (Real.cosh_pos ξ)
  rw [Real.tanh_eq_sinh_div_cosh]
  field_simp
  ring

theorem cockleRoundTrip_pos {r ξ θ1 θ2 : ℝ} (hr : 0 < r) (hξ : 0 < ξ)
    (h1 : θ1 ∈ Set.Ioc (-Real.pi) Real.pi) (h2 : θ2 ∈ Set.Ioc (-Real.pi) Real.pi) :
    cockleCurv (cockleRect r ξ θ1 θ2 1) = (r, some ξ, θ1, θ2, 1) := by
  have hsh : 0 < Real.sinh ξ := Real.sinh_pos_iff.mpr hξ
  have hch : 0 < Real.cosh ξ := Real.cosh_pos ξ
  have hrect : cockleRect r ξ θ1 θ2 1 =
      (⟨r * Real.cosh ξ * Real.cos θ1, r * Real.cosh ξ * Real.sin θ1⟩,
       ⟨r * Real.sinh ξ * Real.cos θ2, r * Real.sinh ξ * Real.sin θ2⟩) := by
    unfold cockleRect
    rw [if_pos (by norm_num : (0:ℤ) < 1)]
  rw [hrect]
  have hq : cockleQuad
      (⟨r * Real.cosh ξ * Real.cos θ1, r * Real.cosh ξ * Real.sin θ1⟩,
       ⟨r * Real.sinh ξ * Real.cos θ2, r * Real.sinh ξ * Real.sin θ2⟩) = r ^ 2 := by
    rw [cockleQuad_eq]
    show Complex.normSq ⟨r * Real.cosh ξ * Real.cos θ1, r * Real.cosh ξ * Real.sin θ1⟩ -
      Complex.normSq ⟨r * Real.sinh ξ * Real.cos θ2, r * Real.sinh ξ * Real.sin θ2⟩ = r ^ 2
    rw [normSq_polar, normSq_polar]
    linear_combination (r ^ 2) * Real.cosh_sq_sub_sinh_sq ξ
  unfold cockleCurv
  rw [hq, if_pos (pow_pos hr 2)]
  refine Prod.ext ?_ (Prod.ext ?_ (Prod.ext ?_ (Prod.ext ?_ rfl)))
  · exact Real.sqrt_sq hr.le
  · show some (atanh (Complex.abs ⟨r * Real.sinh ξ * Real.cos θ2, r * Real.sinh ξ * Real.sin θ2⟩ /
      Complex.abs ⟨r * Real.cosh ξ * Real.cos θ1, r * Real.cosh ξ * Real.sin θ1⟩)) = some ξ
    rw [abs_polar, abs_polar, abs_of_pos (mul_pos hr hsh), abs_of_pos (mul_pos hr hch),
      div_eq_tanh (ne_of_gt hr), atanh_tanh]
  · exact arg_polar (mul_pos hr hch) h1
  · exact arg_polar (mul_pos hr hsh) h2

theorem cockleRoundTrip_neg {r ξ θ1 θ2 : ℝ} (hr : 0 < r) (hξ : 0 < ξ)
    (h1 : θ1 ∈ Set.Ioc (-Real.pi) Real.pi) (h2 : θ2 ∈ Set.Ioc (-Real.pi) Real.pi) :
    cockleCurv (cockleRect r ξ θ1 θ2 (-1)) = (r, some ξ, θ1, θ2, -1) := by
  have hsh : 0 < Real.sinh ξ := Real.sinh_pos_iff.mpr hξ
  have hch : 0 < Real.cosh ξ := Real.cosh_pos ξ
  have hrect : cockleRect r ξ θ1 θ2 (-1) =
      (⟨r * Real.sinh ξ * Real.cos θ1, r * Real.sinh ξ * Real.sin θ1⟩,
       ⟨r * Real.cosh ξ * Real.cos θ2, r * Real.cosh ξ * Real.sin θ2⟩) := by
    unfold cockleRect
    rw [if_neg (by norm_num : ¬(0:ℤ) < -1), if_pos (by norm_num : (-1:ℤ) < 0)]
  rw [hrect]
  have hq : cockleQuad
      (⟨r * Real.sinh ξ * Real.cos θ1, r * Real.sinh ξ * Real.sin θ1⟩,
       ⟨r * Real.cosh ξ * Real.cos θ2, r * Real.cosh ξ * Real.sin θ2⟩) = -(r ^ 2) := by
    rw [cockleQuad_eq]
    show Complex.normSq ⟨r * Real.sinh ξ * Real.cos θ1, r * Real.sinh ξ * Real.sin θ1⟩ -
      Complex.normSq ⟨r * Real.cosh ξ * Real.cos θ2, r * Real.cosh ξ * Real.sin θ2⟩ = -(r ^ 2)
    rw [normSq_polar, normSq_polar]
    linear_combination (-(r ^ 2)) * Real.cosh_sq_sub_sinh_sq ξ
  unfold cockleCurv
  rw [hq, if_neg (not_lt.mpr (neg_nonpos_of_nonneg (sq_nonneg r))),
    if_pos (neg_lt_zero.mpr (pow_pos hr 2))]
  refine Prod.ext ?_ (Prod.ext ?_ (Prod.ext ?_ (Prod.ext ?_ rfl)))
  · rw [neg_neg]
    exact Real.sqrt_sq hr.le
  · show some (atanh (Complex.abs ⟨r * Real.sinh ξ * Real.cos θ1, r * Real.sinh ξ * Real.sin θ1⟩ /
      Complex.abs ⟨r * Real.cosh ξ * Real.cos θ2, r * Real.cosh ξ * Real.sin θ2⟩)) = some ξ
    rw [abs_polar, abs_polar, abs_of_pos (mul_pos hr hsh), abs_of_pos (mul_pos hr hch),
      div_eq_tanh (ne_of_gt hr), atanh_tanh]
  · exact arg_polar (mul_pos hr hsh) h1
  · exact arg_polar (mul_pos hr hch) h2

theorem cockleRoundTrip_zero {r θ1 θ2 : ℝ} (hr : 0 < r)
    (h1 : θ1 ∈ Set.Ioc (-Real.pi) Real.pi) (h2 : θ2 ∈ Set.Ioc (-Real.pi) Real.pi)
    (ξ : ℝ) :
    cockleCurv (cockleRect r ξ θ1 θ2 0) = (r, none, θ1, θ2, 0) := by
  have hrect : cockleRect r ξ θ1 θ2 0 =
      (⟨r * Real.cos θ1, r * Real.sin θ1⟩, ⟨r * Real.cos θ2, r * Real.sin θ2⟩) := by
    unfold cockleRect
    rw [if_neg (by norm_num : ¬(0:ℤ) < 0), if_neg (by norm_num : ¬(0:ℤ) < 0)]
  rw [hrect]
  have hq : cockleQuad
      (⟨r * Real.cos θ1, r * Real.sin θ1⟩, ⟨r * Real.cos θ2, r * Real.sin θ2⟩) = 0 := by
    rw [cockleQuad_eq]
    show Complex.normSq ⟨r * Real.cos θ1, r * Real.sin θ1⟩ -
      Complex.normSq ⟨r * Real.cos θ2, r * Real.sin θ2⟩ = 0
    rw [normSq_polar, normSq_polar, sub_self]
  unfold cockleCurv
  rw [hq, if_neg (lt_irrefl 0), if_neg (lt_irrefl 0)]
  refine Prod.ext ?_ (Prod.ext rfl (Prod.ext ?_ (Prod.ext ?_ rfl)))
  · show Complex.abs ⟨r * Real.cos θ1, r * Real.sin θ1⟩ = r
    rw [abs_polar, abs_of_pos hr]
  · exact arg_polar hr h1
  · exact arg_polar hr h2

theorem macfarlaneRoundTrip_pos {r ξ θ1 θ2 : ℝ} (hr : 0 < r) (hξ : 0 < ξ)
    (h1 : θ1 ∈ Set.Ioo 0 Real.pi) (h2 : θ2 ∈ Set.Ioc (-Real.pi) Real.pi) :
    macfarlaneCurv (macfarlaneRect r ξ θ1 θ2 1) = (r, some ξ, θ1, θ2, 1) := by
  have hsh : 0 < Real.sinh ξ := Real.sinh_pos_iff.mpr hξ
  have hch : 0 < Real.cosh ξ := Real.cosh_pos ξ
  have hsin : 0 < Real.sin θ1 := Real.sin_pos_of_pos_of_lt_pi h1.1 h1.2
  have h1c : θ1 ∈ Set.Ioc (-Real.pi) Real.pi :=
    ⟨lt_trans (neg_lt_zero.mpr Real.pi_pos) h1.1, le_of_lt h1.2⟩
  have hrect : macfarlaneRect r ξ θ1 θ2 1 =
      ⟨r * Real.cosh ξ,
       r * Real.sinh ξ * Real.cos θ1,
       r * Real.sinh ξ * Real.sin θ1 * Real.cos θ2,
       r * Real.sinh ξ * Real.sin θ1 * Real.sin θ2⟩ := by
    unfold macfarlaneRect
    rw [if_pos (by norm_num : (0:ℤ) < 1)]
  rw [hrect]
  have hq : macfarlaneQuad
      ⟨r * Real.cosh ξ,
       r * Real.sinh ξ * Real.cos θ1,
       r * Real.sinh ξ * Real.sin θ1 * Real.cos θ2,
       r * Real.sinh ξ * Real.sin θ1 * Real.sin θ2⟩ = r ^ 2 := by
    rw [macfarlaneQuad_eq]
    linear_combination (r ^ 2) * Real.cosh_sq_sub_sinh_sq ξ +
      (-(r ^ 2) * Real.sinh ξ ^ 2) * Real.sin_sq_add_cos_sq θ1 +
      (-(r ^ 2) * Real.sinh ξ ^ 2 * Real.sin θ1 ^ 2) * Real.sin_sq_add_cos_sq θ2
  have hh : hypot (r * Real.sinh ξ * Real.sin θ1 * Real.cos θ2)
      (r * Real.sinh ξ * Real.sin θ1 * Real.sin θ2) = r * Real.sinh ξ * Real.sin θ1 := by
    rw [hypot_polar, abs_of_pos (mul_pos (mul_pos hr hsh) hsin)]
  have hbh : hypot (r * Real.sinh ξ * Real.cos θ1) (r * Real.sinh ξ * Real.sin θ1) =
      r * Real.sinh ξ := by
    rw [hypot_polar, abs_of_pos (mul_pos hr hsh)]
  unfold macfarlaneCurv
  rw [hq, if_pos (pow_pos hr 2)]
  refine Prod.ext ?_ (Prod.ext ?_ (Prod.ext ?_ (Prod.ext ?_ rfl)))
  · exact Real.sqrt_sq hr.le
  · show some (atanh (hypot (r * Real.sinh ξ * Real.cos θ1)
      (hypot (r * Real.sinh ξ * Real.sin θ1 * Real.cos θ2)
        (r * Real.sinh ξ * Real.sin θ1 * Real.sin θ2)) / (r * Real.cosh ξ))) = some ξ
    rw [hh, hbh, div_eq_tanh (ne_of_gt hr), atanh_tanh]
  · show atan2 (hypot (r * Real.sinh ξ * Real.sin θ1 * Real.cos θ2)
      (r * Real.sinh ξ * Real.sin θ1 * Real.sin θ2)) (r * Real.sinh ξ * Real.cos θ1) = θ1
    rw [hh]
    exact atan2_polar (mul_pos hr hsh) h1c
  · exact atan2_polar (mul_pos (mul_pos hr hsh) hsin) h2

theorem macfarlaneRoundTrip_neg {r ξ θ1 θ2 : ℝ} (hr : 0 < r) (hξ : 0 < ξ)
    (h1 : θ1 ∈ Set.Ioo 0 Real.pi) (h2 : θ2 ∈ Set.Ioc (-Real.pi) Real.pi) :
    macfarlaneCurv (macfarlaneRect r ξ θ1 θ2 (-1)) = (r, some ξ, θ1, θ2, -1) := by
  have hsh : 0 < Real.sinh ξ := Real.sinh_pos_iff.mpr hξ
  have hch : 0 < Real.cosh ξ := Real.cosh_pos ξ
  have hsin : 0 < Real.sin θ1 := Real.sin_pos_of_pos_of_lt_pi h1.1 h1.2
  have h1c : θ1 ∈ Set.Ioc (-Real.pi) Real.pi :=
    ⟨lt_trans (neg_lt_zero.mpr Real.pi_pos) h1.1, le_of_lt h1.2⟩
  have hrect : macfarlaneRect r ξ θ1 θ2 (-1) =
      ⟨r * Real.sinh ξ,
       r * Real.cosh ξ * Real.cos θ1,
       r * Real.cosh ξ * Real.sin θ1 * Real.cos θ2,
       r * Real.cosh ξ * Real.sin θ1 * Real.sin θ2⟩ := by
    unfold macfarlaneRect
    rw [if_neg (by norm_num : ¬(0:ℤ) < -1), if_pos (by norm_num : (-1:ℤ) < 0)]
  rw [hrect]
  have hq : macfarlaneQuad
      ⟨r * Real.sinh ξ,
       r * Real.cosh ξ * Real.cos θ1,
       r * Real.cosh ξ * Real.sin θ1 * Real.cos θ2,
       r * Real.cosh ξ * Real.sin θ1 * Real.sin θ2⟩ = -(r ^ 2) := by
    rw [macfarlaneQuad_eq]
    linear_combination (-(r ^ 2)) * Real.cosh_sq_sub_sinh_sq ξ +
      (-(r ^ 2) * Real.cosh ξ ^ 2) * Real.sin_sq_add_cos_sq θ1 +
      (-(r ^ 2) * Real.cosh ξ ^ 2 * Real.sin θ1 ^ 2) * Real.sin_sq_add_cos_sq θ2
  have hh : hypot (r * Real.cosh ξ * Real.sin θ1 * Real.cos θ2)
      (r * Real.cosh ξ * Real.sin θ1 * Real.sin θ2) = r * Real.cosh ξ * Real.sin θ1 := by
    rw [hypot_polar, abs_of_pos (mul_pos (mul_pos hr hch) hsin)]
  have hbh : hypot (r * Real.cosh ξ * Real.cos θ1) (r * Real.cosh ξ * Real.sin θ1) =
      r * Real.cosh ξ := by
    rw [hypot_polar, abs_of_pos (mul_pos hr hch)]
  unfold macfarlaneCurv
  rw [hq, if_neg (not_lt.mpr (neg_nonpos_of_nonneg (sq_nonneg r))),
    if_pos (neg_lt_zero.mpr (pow_pos hr 2))]
  refine Prod.ext ?_ (Prod.ext ?_ (Prod.ext ?_ (Prod.ext ?_ rfl)))
  · rw [neg_neg]
    exact Real.sqrt_sq hr.le
  · show some (atanh ((r * Real.sinh ξ) / hypot (r * Real.cosh ξ * Real.cos θ1)
      (hypot (r * Real.cosh ξ * Real.sin θ1 * Real.cos θ2)
        (r * Real.cosh ξ * Real.sin θ1 * Real.sin θ2)))) = some ξ
    rw [hh, hbh, div_eq_tanh (ne_of_gt hr), atanh_tanh]
  · show atan2 (hypot (r * Real.cosh ξ * Real.sin θ1 * Real.cos θ2)
      (r * Real.cosh ξ * Real.sin θ1 * Real.sin θ2)) (r * Real.cosh ξ * Real.cos θ1) = θ1
    rw [hh]
    exact atan2_polar (mul_pos hr hch) h1c
  · exact atan2_polar (mul_pos (mul_pos hr hch) hsin) h2

theorem macfarlaneRoundTrip_zero {r θ1 θ2 : ℝ} (hr : 0 < r)
    (h1 : θ1 ∈ Set.Ioo 0 Real.pi) (h2 : θ2 ∈ Set.Ioc (-Real.pi) Real.pi)
    (ξ : ℝ) :
    macfarlaneCurv (macfarlaneRect r ξ θ1 θ2 0) = (r, none, θ1, θ2, 0) := by
  have hsin : 0 < Real.sin θ1 := Real.sin_pos_of_pos_of_lt_pi h1.1 h1.2
  have h1c : θ1 ∈ Set.Ioc (-Real.pi) Real.pi :=
    ⟨lt_trans (neg_lt_zero.mpr Real.pi_pos) h1.1, le_of_lt h1.2⟩
  have hrect : macfarlaneRect r ξ θ1 θ2 0 =
      ⟨r, r * Real.cos θ1, r * Real.sin θ1 * Real.cos θ2,
       r * Real.sin θ1 * Real.sin θ2⟩ := by
    unfold macfarlaneRect
    rw [if_neg (by norm_num : ¬(0:ℤ) < 0), if_neg (by norm_num : ¬(0:ℤ) < 0)]
  rw [hrect]
  have hq : macfarlaneQuad
      ⟨r, r * Real.cos θ1, r * Real.sin θ1 * Real.cos θ2,
       r * Real.sin θ1 * Real.sin θ2⟩ = 0 := by
    rw [macfarlaneQuad_eq]
    linear_combination (-(r ^ 2)) * Real.sin_sq_add_cos_sq θ1 +
      (-(r ^ 2) * Real.sin θ1 ^ 2) * Real.sin_sq_add_cos_sq θ2
  have hh : hypot (r * Real.sin θ1 * Real.cos θ2) (r * Real.sin θ1 * Real.sin θ2) =
      r * Real.sin θ1 := by
    rw [hypot_polar, abs_of_pos (mul_pos hr hsin)]
  unfold macfarlaneCurv
  rw [hq, if_neg (lt_irrefl 0), if_neg (lt_irrefl 0)]
  refine Prod.ext rfl (Prod.ext rfl (Prod.ext ?_ (Prod.ext ?_ rfl)))
  · show atan2 (hypot (r * Real.sin θ1 * Real.cos θ2) (r * Real.sin θ1 * Real.sin θ2))
      (r * Real.cos θ1) = θ1
    rw [hh]
    exact atan2_polar hr h1c
  · exact atan2_polar (mul_pos hr hsin) h2

/-- C1 (amended): for the Cockle and Macfarlane algebras the
curvilinear-coordinate maps are mutually inverse on each quadrance-sign
branch as long as the parameters lie in the charts the formulas use —
`r > 0`, `ξ > 0`, phases in `(-π, π]` for Cockle, polar angle `θ1` in
`(0, π)` and `θ2` in `(-π, π]` for Macfarlane: `Curv(Rect(...))` recovers
the coordinates and the sign exactly (hence within the 1e-8 tolerance).
On the `sign = 0` branch `Rect` is independent of `ξ` (the conversion uses
no hyperbolic functions) and `Curv` returns `ξ = NaN` (`none`).  The Go
`Minkowski.Curv` is excluded: it passes the arguments of `atan2` for `θ1`
in the opposite order and does not invert `RectMinkowski`. -/
theorem C1_curvilinear_round_trip {r ξ θc1 θc2 θm1 θm2 : ℝ}
    (hr : 0 < r) (hξ : 0 < ξ)
    (hc1 : θc1 ∈ Set.Ioc (-Real.pi) Real.pi) (hc2 : θc2 ∈ Set.Ioc (-Real.pi) Real.pi)
    (hm1 : θm1 ∈ Set.Ioo 0 Real.pi) (hm2 : θm2 ∈ Set.Ioc (-Real.pi) Real.pi) :
    cockleCurv (cockleRect r ξ θc1 θc2 1) = (r, some ξ, θc1, θc2, 1) ∧
    cockleCurv (cockleRect r ξ θc1 θc2 (-1)) = (r, some ξ, θc1, θc2, -1) ∧
    cockleCurv (cockleRect r ξ θc1 θc2 0) = (r, none, θc1, θc2, 0) ∧
    (∀ ξa ξb, cockleRect r ξa θc1 θc2 0 = cockleRect r ξb θc1 θc2 0) ∧
    macfarlaneCurv (macfarlaneRect r ξ θm1 θm2 1) = (r, some ξ, θm1, θm2, 1) ∧
    macfarlaneCurv (macfarlaneRect r ξ θm1 θm2 (-1)) = (r, some ξ, θm1, θm2, -1) ∧
    macfarlaneCurv (macfarlaneRect r ξ θm1 θm2 0) = (r, none, θm1, θm2, 0) ∧
    (∀ ξa ξb, macfarlaneRect r ξa θm1 θm2 0 = macfarlaneRect r ξb θm1 θm2 0) :=
  ⟨cockleRoundTrip_pos hr hξ hc1 hc2, cockleRoundTrip_neg hr hξ hc1 hc2,
   cockleRoundTrip_zero hr hc1 hc2 ξ,
   fun ξa ξb => by unfold cockleRect; norm_num,
   macfarlaneRoundTrip_pos hr hξ hm1 hm2, macfarlaneRoundTrip_neg hr hξ hm1 hm2,
   macfarlaneRoundTrip_zero hr hm1 hm2 ξ,
   fun ξa ξb => by unfold macfarlaneRect; norm_num⟩

/-- Witness for C1 at `r = 1`, `ξ = 1`, Cockle phases `0`, Macfarlane
angles `(π/2, 0)`. -/
theorem C1_witness :
    ((0 : ℝ) < 1 ∧ (0 : ℝ) ∈ Set.Ioc (-Real.pi) Real.pi ∧
      Real.pi / 2 ∈ Set.Ioo 0 Real.pi) ∧
    cockleCurv (cockleRect 1 1 0 0 1) = (1, some 1, 0, 0, 1) ∧
    macfarlaneCurv (macfarlaneRect 1 1 (Real.pi / 2) 0 1) =
      (1, some 1, Real.pi / 2, 0, 1) := by
  have h0 : (0 : ℝ) ∈ Set.Ioc (-Real.pi) Real.pi :=
    ⟨neg_lt_zero.mpr Real.pi_pos, Real.pi_pos.le⟩
  have hm : Real.pi / 2 ∈ Set.Ioo 0 Real.pi :=
    ⟨by positivity, by linarith [Real.pi_pos]⟩
  have h := @C1_curvilinear_round_trip 1 1 0 0 (Real.pi / 2) 0
    one_pos one_pos h0 h0 hm h0
  exact ⟨⟨one_pos, h0, hm⟩, h.1, h.2.2.2.2.1⟩

/-- Counterexample to C1 as stated (which quantifies over every
`(r, ξ, θ1, θ2)` and also names the Minkowski algebra): (a) at the
negative radius `r = -1` on the `sign = 0` branch, the Cockle round trip
returns radius `+1`, off by `2`; (b) the Minkowski `Curv` passes the
`atan2` arguments for `θ1` swapped, so even at the benign point
`(r, ξ, θ1, θ2, sign) = (1, 0, 0, 0, 0)` it returns `θ1 = π/2` instead of
`0`. -/
theorem C1_counterexample :
    ((cockleCurv (cockleRect (-1) 0 0 0 0)).1 = 1 ∧ delta < |(1 : ℝ) - (-1)|) ∧
    ((minkowskiCurv (minkowskiRect 1 0 0 0 0)).2.2.1 = Real.pi / 2 ∧
      delta < |Real.pi / 2 - 0|) := by
  constructor
  · constructor
    · have hrect : cockleRect (-1) 0 0 0 0 =
          (⟨(-1) * Real.cos 0, (-1) * Real.sin 0⟩,
           ⟨(-1) * Real.cos 0, (-1) * Real.sin 0⟩) := by
        unfold cockleRect
        rw [if_neg (by norm_num : ¬(0:ℤ) < 0), if_neg (by norm_num : ¬(0:ℤ) < 0)]
      rw [hrect]
      have hq : cockleQuad
          (⟨(-1) * Real.cos 0, (-1) * Real.sin 0⟩,
           ⟨(-1) * Real.cos 0, (-1) * Real.sin 0⟩) = 0 := by
        rw [cockleQuad_eq]
        exact sub_self _
      unfold cockleCurv
      rw [hq, if_neg (lt_irrefl 0), if_neg (lt_irrefl 0)]
      show Complex.abs ⟨(-1) * Real.cos 0, (-1) * Real.sin 0⟩ = 1
      rw [abs_polar]
      norm_num
    · rw [show |(1 : ℝ) - (-1)| = 2 by norm_num]
      norm_num [delta]
  · constructor
    · have hrect : minkowskiRect 1 0 0 0 0 = ⟨1, 1, 0, 0⟩ := by
        unfold minkowskiRect
        rw [if_neg (by norm_num : ¬(0:ℤ) < 0), if_neg (by norm_num : ¬(0:ℤ) < 0)]
        simp [R4.mk.injEq]
      rw [hrect]
      have hq : minkowskiQuad ⟨1, 1, 0, 0⟩ = 0 := by
        rw [minkowskiQuad_eq]
        norm_num
      unfold minkowskiCurv
      rw [hq, if_neg (lt_irrefl 0), if_neg (lt_irrefl 0)]
      show atan2 1 (hypot 0 0) = Real.pi / 2
      have hh : hypot (0 : ℝ) 0 = 0 := by
        unfold hypot
        norm_num
      rw [hh]
      unfold atan2
      have hI : (⟨0, 1⟩ : ℂ) = Complex.I := by
        apply Complex.ext <;> simp
      rw [hI, Complex.arg_I]
    · rw [sub_zero, abs_of_pos (by positivity : (0 : ℝ) < Real.pi / 2)]
      have h3 := Real.pi_gt_three
      norm_num [delta]
      linarith
